import Mathlib

/-!
Shallow embedding of the ordered-collection reflection layer of
`bevy_reflect` (files `src/crates/bevy_reflect/src/array.rs` and
`src/crates/bevy_reflect/src/list.rs`).

The universe of reflectable values is closed under the concrete types that
appear in this layer: leaf values satisfying the external reflectable-value
contract (`prim`, carrying a runtime type identity, payload data and a
hashability flag), and the two erased containers `DynamicArray` (`darray`)
and `DynamicList` (`dlist`), each holding a type-name label and an owned
sequence of reflectable values.

Rust panics (process aborts) are modelled as `none` results; the external
hasher (`ReflectHasher`) is modelled as a state accumulated with the
injective pairing `Nat.pair`, since this layer only feeds it write calls.
-/

/-- A reflectable value of this layer's universe: a leaf value of the
external reflectable-value contract, an erased `DynamicArray`, or an erased
`DynamicList`.  Leaves carry a runtime type identity `tyId`, payload `data`
and whether their `reflect_hash` yields a value. -/
inductive RVal where
  | prim (tyId : Nat) (data : Nat) (hashable : Bool)
  | darray (name : String) (values : List RVal)
  | dlist (name : String) (values : List RVal)

/-- Mirrors the `ReflectRef` enum restricted to the variants this layer
produces: `Array` for `DynamicArray`, `List` for `DynamicList`, and `Value`
for leaf values. -/
inductive ReflectRef where
  | array (values : List RVal)
  | list (values : List RVal)
  | value

/-- Mirrors `Reflect::reflect_ref`: `DynamicArray` reports
`ReflectRef::Array(self)`, `DynamicList` reports `ReflectRef::List(self)`,
and a leaf reports a non-container variant.  The container's capability
view is its element sequence, since the generic algorithms use only
`len`/`get`/`iter`, which all read the `values` field. -/
def reflect_ref : RVal → ReflectRef
  | .prim _ _ _ => .value
  | .darray _ vs => .array vs
  | .dlist _ vs => .list vs

/-- Runtime type identity of `DynamicArray` (`std::any::Any::type_id` at the
concrete container type). -/
def tyIdDynamicArray : Nat := 0

/-- Runtime type identity of `DynamicList`. -/
def tyIdDynamicList : Nat := 1

/-- Mirrors `std::any::Any::type_id`: the concrete type's identity.  For a
leaf it is the leaf's own type identity; for the erased containers it is the
container type's constant, independent of the name label. -/
def typeIdOf : RVal → Nat
  | .prim t _ _ => t
  | .darray _ _ => tyIdDynamicArray
  | .dlist _ _ => tyIdDynamicList

/-- Element sequence exposed through the Array capability (`len`, `get`,
`iter` all read the `values` field of either container).  A leaf exposes no
elements; the generic algorithms are never instantiated at a leaf type. -/
def arrayValues : RVal → List RVal
  | .prim _ _ _ => []
  | .darray _ vs => vs
  | .dlist _ vs => vs

/-- Initial state of `ReflectHasher::default()` (the hasher is external to
this layer; only the sequence of write calls matters). -/
def hInit : Nat := 0

/-- One write call on the external hasher, modelled injectively with
`Nat.pair` so that distinct write sequences of equal length give distinct
states. -/
def hwrite (state n : Nat) : Nat := Nat.pair state n

mutual

/-- Mirrors `Reflect::clone_value`.  Leaves clone to an identical owned
value (external contract, `Box::new(self.clone())`); `DynamicArray` clones
via its overriding `clone_dynamic_array` (same name, elements cloned);
`DynamicList` via `clone_dynamic_list` (same name, elements cloned). -/
def clone_value : RVal → RVal
  | .prim t d h => .prim t d h
  | .darray n vs => .darray n (cloneList vs)
  | .dlist n vs => .dlist n (cloneList vs)

/-- Element-wise `clone_value` over an owned element sequence (the
`self.values.iter().map(|value| value.clone_value()).collect()` pattern). -/
def cloneList : List RVal → List RVal
  | [] => []
  | v :: vs => clone_value v :: cloneList vs

end

/-- Mirrors `Array::clone_dynamic_array` for both containers (each
implementation clones `self.name` and deep-clones the elements into a
`DynamicArray`).  A leaf is not Array-capable, so that case is never
exercised. -/
def clone_dynamic_array : RVal → RVal
  | .prim t d h => .prim t d h
  | .darray n vs => .darray n (cloneList vs)
  | .dlist n vs => .darray n (cloneList vs)

mutual

/-- Mirrors `Reflect::reflect_hash`.  A leaf reports its hash (seeded from
its type identity and data, per the external contract) when hashable, else
`none`; both erased containers delegate to the generic `array_hash`
algorithm, whose body (seed with the concrete container's runtime type
identity and length, then fold the element hashes in index order) is
inlined here. -/
def reflect_hash : RVal → Option Nat
  | .prim t d h => if h then some (Nat.pair t d) else none
  | .darray _ vs => hashFold (hwrite (hwrite hInit tyIdDynamicArray) vs.length) vs
  | .dlist _ vs => hashFold (hwrite (hwrite hInit tyIdDynamicList) vs.length) vs

/-- The element loop of `array_hash`: folds `hasher.write_u64(value.reflect_hash()?)`
over the elements in index order, propagating a missing element hash as
`none`. -/
def hashFold : Nat → List RVal → Option Nat
  | s, [] => some s
  | s, v :: vs =>
    match reflect_hash v with
    | none => none
    | some h => hashFold (hwrite s h) vs

end

/-- Mirrors the generic `array_hash` algorithm: seed a fresh hasher with the
concrete container's runtime type identity and its length, then fold in each
element's structural hash in index order, failing if any element reports no
hash. -/
def array_hash (a : RVal) : Option Nat :=
  hashFold (hwrite (hwrite hInit (typeIdOf a)) (arrayValues a).length) (arrayValues a)

/-- The list of element structural hashes, `none` if any element reports no
hash (specification-shaped view of the `array_hash` element loop). -/
def elementHashes : List RVal → Option (List Nat)
  | [] => some []
  | v :: vs =>
    match reflect_hash v, elementHashes vs with
    | some h, some hs => some (h :: hs)
    | _, _ => none

mutual

/-- Mirrors `Reflect::reflect_partial_eq`.  A leaf follows the external
contract (`impl_reflect_value`): downcast the partner to the leaf's concrete
type — `none` if the types differ — then compare the payloads.  The erased
containers delegate to `array_partial_eq` / `list_partial_eq`. -/
def reflect_partial_eq : RVal → RVal → Option Bool
  | .prim t d _, b =>
    match b with
    | .prim t' d' _ => if t' = t then some (decide (d = d')) else none
    | _ => none
  | .darray _ vs, b => array_partial_eq vs b
  | .dlist _ vs, b => list_partial_eq vs b

/-- Mirrors the generic `array_partial_eq`: the partner must report
`ReflectRef::Array` with equal length (anything else is `Some(false)`), and
then every zipped element pair must report `Some(true)` under its own
partial-equality, any `Some(false)` or `None` short-circuiting to
`Some(false)`. -/
def array_partial_eq : List RVal → RVal → Option Bool
  | avs, .darray _ bvs =>
    if bvs.length = avs.length then
      if peqAll avs bvs then some true else some false
    else some false
  | _, _ => some false

/-- Mirrors the generic `list_partial_eq`: like `array_partial_eq` but the
partner must report `ReflectRef::List`. -/
def list_partial_eq : List RVal → RVal → Option Bool
  | avs, .dlist _ bvs =>
    if bvs.length = avs.length then
      if peqAll avs bvs then some true else some false
    else some false
  | _, _ => some false

/-- The element loop shared by `array_partial_eq` and `list_partial_eq`:
walks the zip of the two sequences and reports whether every pair's
`reflect_partial_eq` is `Some(true)` (a `Some(false)` or `None` pair makes
the loop report false, mirroring the early `return Some(false)`). -/
def peqAll : List RVal → List RVal → Bool
  | [], _ => true
  | _ :: _, [] => true
  | a :: as, b :: bs =>
    match reflect_partial_eq a b with
    | some true => peqAll as bs
    | _ => false

end

mutual

/-- Mirrors `Reflect::apply`, `none` modelling the panic.  A leaf follows
the external contract (`impl_reflect_value`): downcast the source to the
leaf's concrete type and replace self with its clone, panicking if the
downcast fails.  `DynamicArray::apply` delegates to `array_apply`,
`DynamicList::apply` to `list_apply`; both mutate only the element
sequence, never the name label. -/
def apply : RVal → RVal → Option RVal
  | .prim t _ _, b =>
    match b with
    | .prim t' d' h' => if t' = t then some (.prim t' d' h') else none
    | _ => none
  | .darray n vs, b => (array_apply vs b).map (RVal.darray n)
  | .dlist n vs, b => (list_apply vs b).map (RVal.dlist n)

/-- Mirrors the generic `array_apply`: the source must report
`ReflectRef::Array` and have the target's length, else the operation panics
(`none`) before any element is touched; on success every target element is
patched in place from the corresponding source element in index order. -/
def array_apply : List RVal → RVal → Option (List RVal)
  | avs, .darray _ bvs =>
    if avs.length = bvs.length then applyPairs avs bvs else none
  | _, _ => none

/-- Mirrors the generic `list_apply`: the source must report
`ReflectRef::List`, else panic (`none`); source elements within the
target's current length patch the existing elements in place, and the
remaining source elements are deep-cloned and appended. -/
def list_apply : List RVal → RVal → Option (List RVal)
  | avs, .dlist _ bvs => listApplyVals avs bvs
  | _, _ => none

/-- The element loop of `array_apply`: patch each target element from the
corresponding source element (`array.get_mut(i).unwrap().apply(value)`),
propagating an element-level panic; an exhausted source leaves the
remaining target elements untouched, and a source element beyond the target
is the unreachable `unwrap` panic (`none`). -/
def applyPairs : List RVal → List RVal → Option (List RVal)
  | as, [] => some as
  | [], _ :: _ => none
  | a :: as, b :: bs =>
    match apply a b, applyPairs as bs with
    | some a', some as' => some (a' :: as')
    | _, _ => none

/-- The element loop of `list_apply`: source elements at indices below the
target's length patch in place; once the target is exhausted each remaining
source element is cloned (`value.clone_value()`) and pushed. -/
def listApplyVals : List RVal → List RVal → Option (List RVal)
  | as, [] => some as
  | [], b :: bs =>
    match listApplyVals [] bs with
    | some cs => some (clone_value b :: cs)
    | none => none
  | a :: as, b :: bs =>
    match apply a b, listApplyVals as bs with
    | some a', some cs => some (a' :: cs)
    | _, _ => none

end

/-- Mirrors `DynamicArray::set` (`*self = value.take()?`): the supplied
owned value must downcast to `DynamicArray`, in which case it wholesale
replaces the container's state; otherwise the value is handed back as the
error and the container is left unchanged.  The result pairs the
container's new state with the returned error, if any. -/
def DynamicArray_set (self value : RVal) : RVal × Option RVal :=
  match value with
  | .darray n vs => (.darray n vs, none)
  | v => (self, some v)

/-- Mirrors `DynamicList::set` (`*self = value.take()?`), requiring the
value to downcast to `DynamicList`. -/
def DynamicList_set (self value : RVal) : RVal × Option RVal :=
  match value with
  | .dlist n vs => (.dlist n vs, none)
  | v => (self, some v)

/-- Mirrors `DynamicList::push_box` / `List::push for DynamicList`
(`self.values.push(value)`), acting on the owned element vector: the value
is appended at the end, with no constraint on its concrete type. -/
def push (values : List RVal) (value : RVal) : List RVal :=
  values ++ [value]

/-- Mirrors `ArrayIter`: a borrowed view of the array (its element sequence,
re-queried via `get` on each step) plus the next index. -/
structure ArrayIter where
  values : List RVal
  index : Nat

/-- Mirrors `Iterator::next for ArrayIter`: read `array.get(index)`, then
increment `index`, returning the element (or `none` past the end) together
with the advanced iterator. -/
def ArrayIter.next (it : ArrayIter) : Option RVal × ArrayIter :=
  (it.values[it.index]?, { it with index := it.index + 1 })

/-- Mirrors `Iterator::size_hint for ArrayIter` (and hence the
`ExactSizeIterator` length): both bounds are the array's current full
`len()`, with no account taken of the elements already consumed. -/
def ArrayIter.size_hint (it : ArrayIter) : Nat × Option Nat :=
  (it.values.length, some it.values.length)

/-- Structural induction principle for the nested inductive `RVal`,
providing the inductive hypothesis at every element of a container. -/
theorem RVal.indOn (P : RVal → Prop)
    (hprim : ∀ t d h, P (.prim t d h))
    (hdar : ∀ n vs, (∀ v ∈ vs, P v) → P (.darray n vs))
    (hdl : ∀ n vs, (∀ v ∈ vs, P v) → P (.dlist n vs)) : ∀ v, P v := by
  have key : ∀ k v, sizeOf v ≤ k → P v := by
    intro k
    induction k with
    | zero =>
      intro v hv
      cases v <;> simp at hv
    | succ k ih =>
      intro v hv
      cases v with
      | prim t d h => exact hprim t d h
      | darray n vs =>
        refine hdar n vs fun v hvmem => ih v ?_
        have h1 := List.sizeOf_lt_of_mem hvmem
        simp at hv
        omega
      | dlist n vs =>
        refine hdl n vs fun v hvmem => ih v ?_
        have h1 := List.sizeOf_lt_of_mem hvmem
        simp at hv
        omega
  exact fun v => key (sizeOf v) v le_rfl

theorem cloneList_eq_of (vs : List RVal) (h : ∀ v ∈ vs, clone_value v = v) :
    cloneList vs = vs := by
  induction vs with
  | nil => simp [cloneList]
  | cons v vs ih =>
    simp only [cloneList]
    rw [h v (List.mem_cons_self v vs), ih fun w hw => h w (List.mem_cons_of_mem v hw)]

/-- Cloning a reflectable value of this universe yields an equal value
(the erased containers clone their own name and deep-clone elements, and
leaves clone to identical owned values). -/
theorem clone_value_eq : ∀ v, clone_value v = v := by
  intro v
  induction v using RVal.indOn with
  | hprim t d h => simp [clone_value]
  | hdar n vs ih => simp only [clone_value]; rw [cloneList_eq_of vs ih]
  | hdl n vs ih => simp only [clone_value]; rw [cloneList_eq_of vs ih]

theorem cloneList_eq (vs : List RVal) : cloneList vs = vs :=
  cloneList_eq_of vs fun v _ => clone_value_eq v

theorem peqAll_true_iff : ∀ (as bs : List RVal), peqAll as bs = true ↔
    (∀ (i : Nat) (a b : RVal), as[i]? = some a → bs[i]? = some b →
      reflect_partial_eq a b = some true) := by
  intro as
  induction as with
  | nil =>
    intro bs
    simp [peqAll]
  | cons a as ih =>
    intro bs
    cases bs with
    | nil =>
      simp [peqAll]
    | cons b bs =>
      simp only [peqAll]
      cases hpe : reflect_partial_eq a b with
      | none =>
        constructor
        · intro hfalse
          exact absurd hfalse (by simp)
        · intro hall
          have h0 := hall 0 a b (by simp) (by simp)
          rw [hpe] at h0
          cases h0
      | some bv =>
        cases bv with
        | false =>
          constructor
          · intro hfalse
            exact absurd hfalse (by simp)
          · intro hall
            have h0 := hall 0 a b (by simp) (by simp)
            rw [hpe] at h0
            cases h0
        | true =>
          rw [ih bs]
          constructor
          · intro hall i x y hx hy
            cases i with
            | zero =>
              simp only [List.getElem?_cons_zero, Option.some.injEq] at hx hy
              rw [← hx, ← hy]
              exact hpe
            | succ i =>
              simp only [List.getElem?_cons_succ] at hx hy
              exact hall i x y hx hy
          · intro hall i x y hx hy
            exact hall (i + 1) x y (by simpa using hx) (by simpa using hy)

theorem peqAll_self_of (vs : List RVal)
    (h : ∀ v ∈ vs, reflect_partial_eq v v = some true) : peqAll vs vs = true := by
  induction vs with
  | nil => simp [peqAll]
  | cons v vs ih =>
    simp only [peqAll]
    rw [h v (List.mem_cons_self v vs)]
    exact ih fun w hw => h w (List.mem_cons_of_mem v hw)

/-- Structural partial-equality is reflexive on this universe: every value
compares equal to itself with `Some(true)`. -/
theorem peq_refl : ∀ v, reflect_partial_eq v v = some true := by
  intro v
  induction v using RVal.indOn with
  | hprim t d h => simp [reflect_partial_eq]
  | hdar n vs ih =>
    simp only [reflect_partial_eq, array_partial_eq]
    rw [peqAll_self_of vs ih]
    simp
  | hdl n vs ih =>
    simp only [reflect_partial_eq, list_partial_eq]
    rw [peqAll_self_of vs ih]
    simp

theorem array_partial_eq_spec (avs : List RVal) (b : RVal) :
    (array_partial_eq avs b).isSome ∧
      (array_partial_eq avs b = some true ↔
        ∃ bvs, reflect_ref b = .array bvs ∧ bvs.length = avs.length ∧
          ∀ (i : Nat) (x y : RVal), avs[i]? = some x → bvs[i]? = some y →
            reflect_partial_eq x y = some true) := by
  cases b with
  | prim t d h =>
    refine ⟨by simp [array_partial_eq], ?_⟩
    simp [array_partial_eq, reflect_ref]
  | dlist n bvs =>
    refine ⟨by simp [array_partial_eq], ?_⟩
    simp [array_partial_eq, reflect_ref]
  | darray n bvs =>
    simp only [array_partial_eq, reflect_ref]
    by_cases hlen : bvs.length = avs.length
    · rw [if_pos hlen]
      cases hp : peqAll avs bvs with
      | true =>
        refine ⟨by simp, ?_⟩
        simp only [true_iff, eq_self_iff_true]
        constructor
        · intro _
          exact ⟨bvs, rfl, hlen, (peqAll_true_iff avs bvs).mp hp⟩
        · intro _
          rfl
      | false =>
        refine ⟨by simp, ?_⟩
        constructor
        · intro hcontra
          cases hcontra
        · rintro ⟨bvs', hbvs', hlen', hall⟩
          injection hbvs' with hb
          subst hb
          rw [(peqAll_true_iff avs bvs).mpr hall] at hp
          cases hp
    · rw [if_neg hlen]
      refine ⟨by simp, ?_⟩
      constructor
      · intro hcontra
        cases hcontra
      · rintro ⟨bvs', hbvs', hlen', hall⟩
        injection hbvs' with hb
        subst hb
        exact absurd hlen' hlen

theorem list_partial_eq_spec (avs : List RVal) (b : RVal) :
    (list_partial_eq avs b).isSome ∧
      (list_partial_eq avs b = some true ↔
        ∃ bvs, reflect_ref b = .list bvs ∧ bvs.length = avs.length ∧
          ∀ (i : Nat) (x y : RVal), avs[i]? = some x → bvs[i]? = some y →
            reflect_partial_eq x y = some true) := by
  cases b with
  | prim t d h =>
    refine ⟨by simp [list_partial_eq], ?_⟩
    simp [list_partial_eq, reflect_ref]
  | darray n bvs =>
    refine ⟨by simp [list_partial_eq], ?_⟩
    simp [list_partial_eq, reflect_ref]
  | dlist n bvs =>
    simp only [list_partial_eq, reflect_ref]
    by_cases hlen : bvs.length = avs.length
    · rw [if_pos hlen]
      cases hp : peqAll avs bvs with
      | true =>
        refine ⟨by simp, ?_⟩
        constructor
        · intro _
          exact ⟨bvs, rfl, hlen, (peqAll_true_iff avs bvs).mp hp⟩
        · intro _
          rfl
      | false =>
        refine ⟨by simp, ?_⟩
        constructor
        · intro hcontra
          cases hcontra
        · rintro ⟨bvs', hbvs', hlen', hall⟩
          injection hbvs' with hb
          subst hb
          rw [(peqAll_true_iff avs bvs).mpr hall] at hp
          cases hp
    · rw [if_neg hlen]
      refine ⟨by simp, ?_⟩
      constructor
      · intro hcontra
        cases hcontra
      · rintro ⟨bvs', hbvs', hlen', hall⟩
        injection hbvs' with hb
        subst hb
        exact absurd hlen' hlen

theorem applyPairs_length : ∀ (bs as cs : List RVal),
    applyPairs as bs = some cs → cs.length = as.length := by
  intro bs
  induction bs with
  | nil =>
    intro as cs h
    simp only [applyPairs, Option.some.injEq] at h
    rw [← h]
  | cons b bs ih =>
    intro as cs h
    cases as with
    | nil => simp [applyPairs] at h
    | cons a as =>
      simp only [applyPairs] at h
      cases ha : apply a b with
      | none => rw [ha] at h; cases h
      | some a0 =>
        rw [ha] at h
        cases hp : applyPairs as bs with
        | none => rw [hp] at h; cases h
        | some cs0 =>
          rw [hp] at h
          simp only [Option.some.injEq] at h
          rw [← h]
          simp [ih as cs0 hp]

theorem applyPairs_self_of (vs : List RVal)
    (h : ∀ v ∈ vs, apply v v = some v) : applyPairs vs vs = some vs := by
  induction vs with
  | nil => simp [applyPairs]
  | cons v vs ih =>
    simp only [applyPairs]
    rw [h v (List.mem_cons_self v vs), ih fun w hw => h w (List.mem_cons_of_mem v hw)]

theorem listApplyVals_self_of (vs : List RVal)
    (h : ∀ v ∈ vs, apply v v = some v) : listApplyVals vs vs = some vs := by
  induction vs with
  | nil => simp [listApplyVals]
  | cons v vs ih =>
    simp only [listApplyVals]
    rw [h v (List.mem_cons_self v vs), ih fun w hw => h w (List.mem_cons_of_mem v hw)]

/-- Applying a value to itself succeeds and is the identity on this
universe. -/
theorem apply_self : ∀ v, apply v v = some v := by
  intro v
  induction v using RVal.indOn with
  | hprim t d h => simp [apply]
  | hdar n vs ih =>
    simp only [apply, array_apply, if_pos rfl]
    rw [applyPairs_self_of vs ih]
    rfl
  | hdl n vs ih =>
    simp only [apply, list_apply]
    rw [listApplyVals_self_of vs ih]
    rfl

theorem applyPairs_idem_of : ∀ (bs : List RVal),
    (∀ b ∈ bs, ∀ a a', apply a b = some a' → apply a' b = some a') →
    ∀ as cs, applyPairs as bs = some cs → applyPairs cs bs = some cs := by
  intro bs
  induction bs with
  | nil =>
    intro _ as cs h
    simp only [applyPairs, Option.some.injEq] at h
    subst h
    simp [applyPairs]
  | cons b bs ih =>
    intro hidem as cs h
    cases as with
    | nil => simp [applyPairs] at h
    | cons a as =>
      simp only [applyPairs] at h
      cases ha : apply a b with
      | none => rw [ha] at h; cases h
      | some a0 =>
        rw [ha] at h
        cases hp : applyPairs as bs with
        | none => rw [hp] at h; cases h
        | some cs0 =>
          rw [hp] at h
          simp only [Option.some.injEq] at h
          subst h
          simp only [applyPairs]
          rw [hidem b (List.mem_cons_self b bs) a a0 ha,
            ih (fun w hw => hidem w (List.mem_cons_of_mem b hw)) as cs0 hp]

theorem listApplyVals_idem_of : ∀ (bs : List RVal),
    (∀ b ∈ bs, ∀ a a', apply a b = some a' → apply a' b = some a') →
    ∀ as cs, listApplyVals as bs = some cs → listApplyVals cs bs = some cs := by
  intro bs
  induction bs with
  | nil =>
    intro _ as cs h
    simp only [listApplyVals, Option.some.injEq] at h
    subst h
    simp [listApplyVals]
  | cons b bs ih =>
    intro hidem as cs h
    cases as with
    | nil =>
      simp only [listApplyVals] at h
      cases hrest : listApplyVals ([] : List RVal) bs with
      | none => rw [hrest] at h; cases h
      | some cs0 =>
        rw [hrest] at h
        simp only [Option.some.injEq] at h
        subst h
        simp only [listApplyVals, clone_value_eq b]
        rw [apply_self b, ih (fun w hw => hidem w (List.mem_cons_of_mem b hw)) [] cs0 hrest]
    | cons a as =>
      simp only [listApplyVals] at h
      cases ha : apply a b with
      | none => rw [ha] at h; cases h
      | some a0 =>
        rw [ha] at h
        cases hp : listApplyVals as bs with
        | none => rw [hp] at h; cases h
        | some cs0 =>
          rw [hp] at h
          simp only [Option.some.injEq] at h
          subst h
          simp only [listApplyVals]
          rw [hidem b (List.mem_cons_self b bs) a a0 ha,
            ih (fun w hw => hidem w (List.mem_cons_of_mem b hw)) as cs0 hp]

/-- A successful `apply` is idempotent: re-applying the same source to the
already-patched target succeeds and changes nothing. -/
theorem apply_idem : ∀ (b a a' : RVal), apply a b = some a' → apply a' b = some a' := by
  intro b
  induction b using RVal.indOn with
  | hprim t d h =>
    intro a a' happ
    cases a with
    | prim ta da ha =>
      simp only [apply] at happ
      by_cases hteq : t = ta
      · rw [if_pos hteq] at happ
        simp only [Option.some.injEq] at happ
        subst happ
        simp [apply, hteq]
      · rw [if_neg hteq] at happ
        cases happ
    | darray na avs => simp [apply, array_apply] at happ
    | dlist na avs => simp [apply, list_apply] at happ
  | hdar nb bvs ih =>
    intro a a' happ
    cases a with
    | prim ta da ha => simp [apply] at happ
    | dlist na avs => simp [apply, list_apply] at happ
    | darray na avs =>
      simp only [apply, array_apply] at happ
      by_cases hlen : avs.length = bvs.length
      · rw [if_pos hlen] at happ
        cases hp : applyPairs avs bvs with
        | none => rw [hp] at happ; cases happ
        | some cs =>
          rw [hp] at happ
          simp only [Option.map_some', Option.some.injEq] at happ
          subst happ
          simp only [apply, array_apply]
          rw [if_pos (by rw [applyPairs_length bvs avs cs hp]; exact hlen),
            applyPairs_idem_of bvs ih avs cs hp]
          rfl
      · rw [if_neg hlen] at happ
        cases happ
  | hdl nb bvs ih =>
    intro a a' happ
    cases a with
    | prim ta da ha => simp [apply] at happ
    | darray na avs => simp [apply, array_apply] at happ
    | dlist na avs =>
      simp only [apply, list_apply] at happ
      cases hp : listApplyVals avs bvs with
      | none => rw [hp] at happ; cases happ
      | some cs =>
        rw [hp] at happ
        simp only [Option.map_some', Option.some.injEq] at happ
        subst happ
        simp only [apply, list_apply]
        rw [listApplyVals_idem_of bvs ih avs cs hp]
        rfl

/-- Positional characterisation of the `list_apply` element loop: the result
has the longer length, source elements within the target patch in place,
source elements beyond the target are appended as deep clones, and target
elements beyond the source are untouched. -/
theorem listApplyVals_spec : ∀ (bs as cs : List RVal), listApplyVals as bs = some cs →
    cs.length = max as.length bs.length ∧
    (∀ (i : Nat) (a b : RVal), as[i]? = some a → bs[i]? = some b →
      ∃ c, cs[i]? = some c ∧ apply a b = some c) ∧
    (∀ i : Nat, as.length ≤ i → cs[i]? = (bs[i]?).map clone_value) ∧
    (∀ i : Nat, bs.length ≤ i → cs[i]? = as[i]?) := by
  intro bs
  induction bs with
  | nil =>
    intro as cs h
    simp only [listApplyVals, Option.some.injEq] at h
    subst h
    refine ⟨by simp, ?_, ?_, ?_⟩
    · intro i a b _ hb
      simp at hb
    · intro i hi
      rw [List.getElem?_eq_none hi]
      simp
    · intro i _
      rfl
  | cons b bs ih =>
    intro as cs h
    cases as with
    | nil =>
      simp only [listApplyVals] at h
      cases hrest : listApplyVals ([] : List RVal) bs with
      | none => rw [hrest] at h; cases h
      | some cs0 =>
        rw [hrest] at h
        simp only [Option.some.injEq] at h
        subst h
        obtain ⟨hlen, _, hclone, huntouched⟩ := ih [] cs0 hrest
        simp only [List.length_nil, Nat.max_eq_right (Nat.zero_le _)] at hlen
        refine ⟨by simp [hlen], ?_, ?_, ?_⟩
        · intro i a b' ha _
          simp at ha
        · intro i _
          cases i with
          | zero => simp
          | succ j =>
            simp only [List.getElem?_cons_succ]
            exact hclone j (Nat.zero_le j)
        · intro i hi
          cases i with
          | zero => simp at hi
          | succ j =>
            simp only [List.getElem?_cons_succ]
            rw [huntouched j (by simpa using hi)]
            simp
    | cons a as =>
      simp only [listApplyVals] at h
      cases ha : apply a b with
      | none => rw [ha] at h; cases h
      | some c0 =>
        rw [ha] at h
        cases hp : listApplyVals as bs with
        | none => rw [hp] at h; cases h
        | some cs0 =>
          rw [hp] at h
          simp only [Option.some.injEq] at h
          subst h
          obtain ⟨hlen, hpatch, hclone, huntouched⟩ := ih as cs0 hp
          refine ⟨by simp only [List.length_cons]; omega, ?_, ?_, ?_⟩
          · intro i x y hx hy
            cases i with
            | zero =>
              simp only [List.getElem?_cons_zero, Option.some.injEq] at hx hy
              subst hx
              subst hy
              exact ⟨c0, by simp, ha⟩
            | succ j =>
              simp only [List.getElem?_cons_succ] at hx hy ⊢
              exact hpatch j x y hx hy
          · intro i hi
            cases i with
            | zero => simp at hi
            | succ j =>
              simp only [List.getElem?_cons_succ]
              exact hclone j (by simpa using hi)
          · intro i hi
            cases i with
            | zero => simp at hi
            | succ j =>
              simp only [List.getElem?_cons_succ]
              exact huntouched j (by simpa using hi)

theorem hashFold_eq : ∀ (vs : List RVal) (s : Nat),
    hashFold s vs = (elementHashes vs).map (List.foldl hwrite s) := by
  intro vs
  induction vs with
  | nil =>
    intro s
    simp [hashFold, elementHashes]
  | cons v vs ih =>
    intro s
    simp only [hashFold, elementHashes]
    cases hv : reflect_hash v with
    | none => rfl
    | some h =>
      cases he : elementHashes vs with
      | none =>
        show hashFold (hwrite s h) vs = _
        rw [ih (hwrite s h), he]
        rfl
      | some hs =>
        show hashFold (hwrite s h) vs = _
        rw [ih (hwrite s h), he]
        rfl

theorem elementHashes_eq_none_iff : ∀ vs : List RVal,
    elementHashes vs = none ↔ ∃ v ∈ vs, reflect_hash v = none := by
  intro vs
  induction vs with
  | nil => simp [elementHashes]
  | cons v vs ih =>
    simp only [elementHashes]
    cases hv : reflect_hash v with
    | none =>
      constructor
      · intro _
        exact ⟨v, List.mem_cons_self v vs, hv⟩
      · intro _
        rfl
    | some h =>
      cases he : elementHashes vs with
      | none =>
        constructor
        · intro _
          obtain ⟨w, hw, hwn⟩ := (ih.mp he)
          exact ⟨w, List.mem_cons_of_mem v hw, hwn⟩
        · intro _
          rfl
      | some hs =>
        constructor
        · intro hcontra
          cases hcontra
        · rintro ⟨w, hw, hwn⟩
          rcases List.mem_cons.mp hw with hwv | hwvs
          · subst hwv
            rw [hv] at hwn
            cases hwn
          · have hvs := ih.mpr ⟨w, hwvs, hwn⟩
            rw [he] at hvs
            cases hvs

/-- C1: `array_partial_eq` returns `Some(true)` exactly when the partner is
Array-capable, of equal length, and every corresponding element pair reports
`Some(true)` under its own partial-equality; every other situation yields
`Some(false)`, and the result is never `None`; analogously for
`list_partial_eq` with List-capability. -/
theorem c1_container_partial_eq_spec (avs : List RVal) (v : RVal) :
    (array_partial_eq avs v).isSome ∧
    (array_partial_eq avs v = some true ↔
      ∃ bvs, reflect_ref v = .array bvs ∧ bvs.length = avs.length ∧
        ∀ (i : Nat) (x y : RVal), avs[i]? = some x → bvs[i]? = some y →
          reflect_partial_eq x y = some true) ∧
    (list_partial_eq avs v).isSome ∧
    (list_partial_eq avs v = some true ↔
      ∃ bvs, reflect_ref v = .list bvs ∧ bvs.length = avs.length ∧
        ∀ (i : Nat) (x y : RVal), avs[i]? = some x → bvs[i]? = some y →
          reflect_partial_eq x y = some true) :=
  ⟨(array_partial_eq_spec avs v).1, (array_partial_eq_spec avs v).2,
    (list_partial_eq_spec avs v).1, (list_partial_eq_spec avs v).2⟩

theorem c1_container_partial_eq_spec_witness :
    array_partial_eq [RVal.prim 0 1 true] (RVal.darray "x" [RVal.prim 0 1 true]) = some true :=
  (c1_container_partial_eq_spec [RVal.prim 0 1 true]
      (RVal.darray "x" [RVal.prim 0 1 true])).2.1.mpr
    ⟨[RVal.prim 0 1 true], rfl, rfl, by
      intro i x y hx hy
      cases i with
      | zero =>
        simp only [List.getElem?_cons_zero, Option.some.injEq] at hx hy
        subst hx
        subst hy
        simp [reflect_partial_eq]
      | succ j => simp at hx⟩

/-- C2: `array_apply` with a source that is not Array-capable, or whose
length differs from the target's, aborts: the panic (modelled as `none`) is
raised by the kind/length check before the element loop runs, so no element
of the target is patched. -/
theorem c2_array_apply_mismatch_aborts (avs : List RVal) (v : RVal)
    (h : (∀ bvs, reflect_ref v ≠ .array bvs) ∨
      ∃ bvs, reflect_ref v = .array bvs ∧ bvs.length ≠ avs.length) :
    array_apply avs v = none := by
  cases v with
  | prim t d hh => simp [array_apply]
  | dlist n bvs => simp [array_apply]
  | darray n bvs =>
    rcases h with hcap | ⟨bvs', heq, hlen⟩
    · exact absurd rfl (hcap bvs)
    · injection heq with hb
      subst hb
      simp only [array_apply]
      rw [if_neg fun hc => hlen hc.symm]

theorem c2_array_apply_mismatch_aborts_witness :
    array_apply [] (RVal.prim 0 0 true) = none :=
  c2_array_apply_mismatch_aborts [] (RVal.prim 0 0 true)
    (Or.inl fun bvs h => by simp [reflect_ref] at h)

/-- C3: after a successful `list_apply` with target length `m` and source
length `n`, the target length is `max m n` (it grows to `n` when `n > m`
and never shrinks), indices below both lengths are patched in place from
the source, appended indices hold deep clones of — and are structurally
equal to — the corresponding source elements, and trailing target elements
beyond the source are untouched. -/
theorem c3_list_apply_growth (name : String) (avs bvs cs : List RVal)
    (h : list_apply avs (.dlist name bvs) = some cs) :
    cs.length = max avs.length bvs.length ∧
    (∀ (i : Nat) (a b : RVal), avs[i]? = some a → bvs[i]? = some b →
      ∃ c, cs[i]? = some c ∧ apply a b = some c) ∧
    (∀ i : Nat, avs.length ≤ i → cs[i]? = (bvs[i]?).map clone_value) ∧
    (∀ (i : Nat) (b : RVal), avs.length ≤ i → bvs[i]? = some b →
      ∃ c, cs[i]? = some c ∧ reflect_partial_eq c b = some true) ∧
    (∀ i : Nat, bvs.length ≤ i → cs[i]? = avs[i]?) := by
  have h' : listApplyVals avs bvs = some cs := by simpa [list_apply] using h
  obtain ⟨hlen, hpatch, hclone, huntouched⟩ := listApplyVals_spec bvs avs cs h'
  refine ⟨hlen, hpatch, hclone, ?_, huntouched⟩
  intro i b hi hb
  refine ⟨clone_value b, ?_, ?_⟩
  · rw [hclone i hi, hb]
    rfl
  · rw [clone_value_eq b]
    exact peq_refl b

theorem c3_list_apply_growth_witness :
    list_apply [RVal.prim 0 1 true, RVal.prim 0 2 true, RVal.prim 0 3 true]
        (RVal.dlist "src" [RVal.prim 0 9 true, RVal.prim 0 9 true]) =
      some [RVal.prim 0 9 true, RVal.prim 0 9 true, RVal.prim 0 3 true] ∧
    ([RVal.prim 0 9 true, RVal.prim 0 9 true, RVal.prim 0 3 true] : List RVal).length =
      max 3 2 := by
  have happly : list_apply [RVal.prim 0 1 true, RVal.prim 0 2 true, RVal.prim 0 3 true]
      (RVal.dlist "src" [RVal.prim 0 9 true, RVal.prim 0 9 true]) =
      some [RVal.prim 0 9 true, RVal.prim 0 9 true, RVal.prim 0 3 true] := by
    simp [list_apply, listApplyVals, apply]
  refine ⟨happly, ?_⟩
  exact (c3_list_apply_growth "src" _ _ _ happly).1

/-- C4 as stated is false: `array_hash` seeds with the concrete container's
runtime type identity, and `clone_dynamic_array` of a `DynamicList` is a
`DynamicArray`, so the two hash inputs differ already at the seed; an empty
`DynamicList` (all of whose elements are vacuously hashable) witnesses
this. -/
theorem c4_hash_clone_counterexample :
    array_hash (RVal.dlist "" []) ≠ array_hash (clone_dynamic_array (RVal.dlist "" [])) := by
  decide

/-- C4 amended: for every erased Array (`DynamicArray`) all of whose
elements are hashable, the structural hash is preserved by
`clone_dynamic_array`; for an Array of any other concrete type (such as
`DynamicList`) the clone seeds the hash with a different runtime type
identity, so preservation fails in general. -/
theorem c4_array_hash_clone_dynamic (n : String) (vs : List RVal)
    (_h : ∀ v ∈ vs, (reflect_hash v).isSome) :
    array_hash (RVal.darray n vs) = array_hash (clone_dynamic_array (RVal.darray n vs)) := by
  simp [clone_dynamic_array, cloneList_eq]

theorem c4_array_hash_clone_dynamic_witness :
    array_hash (RVal.darray "w" [RVal.prim 0 5 true]) =
      array_hash (clone_dynamic_array (RVal.darray "w" [RVal.prim 0 5 true])) :=
  c4_array_hash_clone_dynamic "w" [RVal.prim 0 5 true] (by decide)

/-- C5: the structural hash of an Array-capable container is `none` exactly
when some element reports no structural hash; otherwise it is the fold, in
index order, of the element hashes over a state seeded with the concrete
container's runtime type identity and its length. -/
theorem c5_array_hash_spec (a : RVal) (avs : List RVal)
    (h : reflect_ref a = .array avs ∨ reflect_ref a = .list avs) :
    array_hash a = (elementHashes avs).map
      (List.foldl hwrite (hwrite (hwrite hInit (typeIdOf a)) avs.length)) ∧
    (array_hash a = none ↔ ∃ v ∈ avs, reflect_hash v = none) := by
  have hvals : arrayValues a = avs := by
    rcases h with h | h <;> cases a <;> simp [reflect_ref] at h <;> simp [arrayValues, h]
  have hmain : array_hash a = (elementHashes avs).map
      (List.foldl hwrite (hwrite (hwrite hInit (typeIdOf a)) avs.length)) := by
    simp only [array_hash, hvals]
    exact hashFold_eq avs _
  refine ⟨hmain, ?_⟩
  rw [hmain, Option.map_eq_none']
  exact elementHashes_eq_none_iff avs

theorem c5_array_hash_spec_witness :
    array_hash (RVal.darray "q" [RVal.prim 1 2 false]) = none :=
  (c5_array_hash_spec (RVal.darray "q" [RVal.prim 1 2 false]) [RVal.prim 1 2 false]
      (Or.inl rfl)).2.mpr
    ⟨RVal.prim 1 2 false, by simp, by simp [reflect_hash]⟩

/-- C6: `list_apply` is idempotent in its effect on the target — applying
the same List-capable source to the already-patched target succeeds and
leaves the target unchanged. -/
theorem c6_list_apply_idempotent (avs : List RVal) (s : RVal) (cs : List RVal)
    (h : list_apply avs s = some cs) : list_apply cs s = some cs := by
  cases s with
  | prim t d hh => simp [list_apply] at h
  | darray n bvs => simp [list_apply] at h
  | dlist n bvs =>
    have h' : listApplyVals avs bvs = some cs := by simpa [list_apply] using h
    have h2 := listApplyVals_idem_of bvs (fun b _ => apply_idem b) avs cs h'
    simpa [list_apply] using h2

theorem c6_list_apply_idempotent_witness :
    list_apply [RVal.prim 0 9 true] (RVal.dlist "s" [RVal.prim 0 9 true]) =
      some [RVal.prim 0 9 true] :=
  c6_list_apply_idempotent [RVal.prim 0 1 true] (RVal.dlist "s" [RVal.prim 0 9 true])
    [RVal.prim 0 9 true] (by simp [list_apply, listApplyVals, apply])

/-- C7: `set` on an erased container succeeds and wholesale-replaces the
container's entire state exactly when the supplied owned value downcasts to
the same erased container type; otherwise it fails, hands the value back as
the error, does not coerce, and leaves the container unchanged. -/
theorem c7_set_spec (self v : RVal) :
    ((∃ n vs, v = RVal.darray n vs) → DynamicArray_set self v = (v, none)) ∧
    ((∀ n vs, v ≠ RVal.darray n vs) → DynamicArray_set self v = (self, some v)) ∧
    ((∃ n vs, v = RVal.dlist n vs) → DynamicList_set self v = (v, none)) ∧
    ((∀ n vs, v ≠ RVal.dlist n vs) → DynamicList_set self v = (self, some v)) := by
  refine ⟨?_, ?_, ?_, ?_⟩
  · rintro ⟨_, _, rfl⟩
    rfl
  · intro hne
    cases v with
    | darray n vs => exact absurd rfl (hne n vs)
    | prim t d hh => rfl
    | dlist nn nvs => rfl
  · rintro ⟨_, _, rfl⟩
    rfl
  · intro hne
    cases v with
    | dlist n vs => exact absurd rfl (hne n vs)
    | prim t d hh => rfl
    | darray nn nvs => rfl

theorem c7_set_spec_witness :
    DynamicArray_set (RVal.darray "a" []) (RVal.dlist "b" []) =
      (RVal.darray "a" [], some (RVal.dlist "b" [])) :=
  (c7_set_spec (RVal.darray "a" []) (RVal.dlist "b" [])).2.1
    fun _ _ h => RVal.noConfusion h

/-- C8: `push` appends: the length grows by exactly one, the pushed value
becomes the element at the new last index, previously existing elements are
unchanged at their indices, and the pushed value's concrete type is
unconstrained (heterogeneous element types are legal, the value ranging
over the whole universe). -/
theorem c8_push_spec (values : List RVal) (value : RVal) :
    (push values value).length = values.length + 1 ∧
    (push values value)[values.length]? = some value ∧
    ∀ i : Nat, i < values.length → (push values value)[i]? = values[i]? := by
  refine ⟨by simp [push], by simp [push], ?_⟩
  intro i hi
  simp [push, List.getElem?_append, hi]

theorem c8_push_spec_witness :
    (push [RVal.prim 3 4 true] (RVal.darray "h" [])).length = 2 := by
  simpa using (c8_push_spec [RVal.prim 3 4 true] (RVal.darray "h" [])).1

/-- C9: the type-name label of an erased container influences neither
structural hashing nor structural equality: two `DynamicArray`s (or two
`DynamicList`s) differing only in the label report the same `reflect_hash`,
and the same `reflect_partial_eq` result against any fixed partner. -/
theorem c9_name_label_irrelevant (n1 n2 : String) (vs : List RVal) (b : RVal) :
    reflect_hash (RVal.darray n1 vs) = reflect_hash (RVal.darray n2 vs) ∧
    reflect_partial_eq (RVal.darray n1 vs) b = reflect_partial_eq (RVal.darray n2 vs) b ∧
    reflect_hash (RVal.dlist n1 vs) = reflect_hash (RVal.dlist n2 vs) ∧
    reflect_partial_eq (RVal.dlist n1 vs) b = reflect_partial_eq (RVal.dlist n2 vs) b := by
  refine ⟨?_, ?_, ?_, ?_⟩ <;> simp [reflect_hash, reflect_partial_eq]

/-- C10 fails in its final clause: a consumed iterator over an empty array
is not fresh, yet its reported size (zero) still equals its remaining
element count (zero). -/
theorem c10_size_hint_counterexample :
    ((ArrayIter.next { values := [], index := 0 }).2.index ≠ 0) ∧
    (ArrayIter.size_hint (ArrayIter.next { values := [], index := 0 }).2).1 =
      (ArrayIter.next { values := [], index := 0 }).2.values.length -
        (ArrayIter.next { values := [], index := 0 }).2.index := by
  constructor
  · simp [ArrayIter.next]
  · simp [ArrayIter.next, ArrayIter.size_hint]

/-- C10 amended: `ArrayIter::size_hint` reports the array's current full
`len()` as both lower and upper bound regardless of how many elements have
been consumed; consequently the reported size equals the remaining element
count exactly when the iterator is fresh or the array is empty. -/
theorem c10_size_hint_spec (it : ArrayIter) :
    ArrayIter.size_hint it = (it.values.length, some it.values.length) ∧
    ((ArrayIter.size_hint it).1 = it.values.length - it.index ↔
      it.index = 0 ∨ it.values.length = 0) := by
  refine ⟨rfl, ?_⟩
  simp only [ArrayIter.size_hint]
  omega
